import Mathlib

/-!
Verification of the reward-distribution core in
`x/distribution/keeper/allocation.go`.

Embedding conventions.

Amounts are cosmos `LegacyDec` fixed-point decimals: a decimal is stored as
an integer of internal units, the represented value being that integer
divided by `precision = 10^18`.  Every `DecCoins` operation used by the file
(`Add`, `Sub`, `MulDec`, `MulDecTruncate`, `TruncateDecimal`, `IsZero`) acts
independently per denomination, so the model tracks the amount of one fixed
denomination; theorems about "every denomination" are theorems about this
one arbitrary tracked denomination.  Integer `Coins` amounts (bank balances)
are whole units; `NewDecCoinsFromCoins` multiplies by `precision`.

The store (three per-validator accumulator maps keyed by the encoded
operator address, the fee pool, and the module account balances) is a
`State` record threaded explicitly.  A collections `Get` that finds nothing
is modelled by `Option.none` and read back as zero, exactly as the Go code
treats `collections.ErrNotFound`.  Go functions returning `error` become
functions returning the updated state together with `Option String`:
mutations performed before a failure persist, as they do against the real
store.  External collaborators (staking validator lookup, the validator
address codec, the community-tax parameter) are fields of `Keeper`.
Bank transfers between module accounts are modelled as infallible balance
moves; transfers into the community fund are additionally logged in
`fundTransfers` so that "no external transfer happened" is observable.

The per-vote goroutines of `AllocateTokens` run under an `errgroup.Group`
without cancellation: every task runs to completion, the first error is
returned after all finish, and tasks touch disjoint keys.  The model
processes the votes sequentially in list order, which realises one
scheduling of that concurrent execution; order independence of the result
is proved, not assumed (see the permutation theorem).
-/

namespace DistrAlloc

/-- Modelled from the spec: the fixed-point scale of the decimal arithmetic
library (`LegacyDec`), which is not under src/.  The spec demands exact
scaled-integer decimal semantics; cosmos decimals carry 18 fractional
digits. -/
def precision : ℤ := 10 ^ 18

/-- Modelled from the spec: truncating multiplication of two decimals
(`MulTruncate` / `DecCoins.MulDecTruncate`), "rounding toward zero on every
multiply" (spec glossary).  Internal representation: the product of the two
internal integers carries scale `precision^2`, one factor of which is chopped
off toward zero. -/
def mulTruncate (a b : ℤ) : ℤ := Int.tdiv (a * b) precision

/-- Modelled from the spec: the multiplication used by the validator
allocation engine for the commission split (`DecCoins.MulDec`), described by
the spec as "truncating multiplication" (spec §4.2 step 1). -/
def MulDec (a b : ℤ) : ℤ := mulTruncate a b

/-- Modelled from the spec: truncating division of two decimals
(`QuoTruncate`), "truncating division" (spec §4.1 step 4).  The dividend is
scaled by `precision^2` before the integer quotient, whose extra scale
factor is then chopped off toward zero. -/
def quoTruncate (a b : ℤ) : ℤ :=
  Int.tdiv (Int.tdiv (a * (precision * precision)) b) precision

/-- Modelled from the spec: `DecCoins.TruncateDecimal`, splitting a decimal
into its whole-unit part (an integer `Coins` amount, rounded toward zero)
and the leftover sub-unit fraction (spec §4.3). -/
def truncateDecimal (a : ℤ) : ℤ × ℤ :=
  (Int.tdiv a precision, a - precision * Int.tdiv a precision)

/-- A staking validator as seen through `stakingtypes.ValidatorI`: the
operator address string and the commission rate (a decimal in internal
units). -/
structure ValidatorI where
  operator : String
  commission : ℤ
  deriving DecidableEq

/-- One entry of `bondedVotes`: the consensus address and the voting power
(`comet.VoteInfo`). -/
structure VoteInfo where
  address : String
  power : ℤ
  deriving DecidableEq

/-- The distribution fee pool record; `decimalPool` is the decimal remainder
pool (`FeePool.DecimalPool`) for the tracked denomination. -/
structure FeePool where
  decimalPool : ℤ
  deriving DecidableEq

/-- The store and bank state visible to this core.  Balances are integer
coin amounts; the three accumulator maps are keyed by the encoded validator
operator address, with `none` for an absent record. -/
@[ext]
structure State where
  feeCollectorBalance : ℤ
  distrBalance : ℤ
  communityPoolBalance : ℤ
  feePool : FeePool
  accumulatedCommission : String → Option ℤ
  currentRewards : String → Option ℤ
  outstandingRewards : String → Option ℤ
  fundTransfers : List ℤ

/-- The external collaborators of the keeper: validator lookup by consensus
address, the validator address codec, and the community-tax parameter (a
decimal in internal units). -/
structure Keeper where
  validatorByConsAddr : String → Except String ValidatorI
  validatorAddressCodec : String → Except String String
  communityTax : ℤ

/-- Transfer `amt` whole units from the distribution module account to the
community fund (`SendCoinsFromModuleToModule` toward the protocolpool
module), logging the call. -/
def sendToCommunityFund (s : State) (amt : ℤ) : State :=
  { s with
    distrBalance := s.distrBalance - amt
    communityPoolBalance := s.communityPoolBalance + amt
    fundTransfers := s.fundTransfers ++ [amt] }

/-- `AllocateTokensToValidator`: split `tokens` into commission and shared
part, encode the operator address (an encoding failure aborts before any
store access), then add the three contributions to the accumulator records,
reading an absent record as zero. -/
def AllocateTokensToValidator (k : Keeper) (val : ValidatorI) (tokens : ℤ)
    (s : State) : State × Option String :=
  let commission := MulDec tokens val.commission
  let shared := tokens - commission
  match k.validatorAddressCodec val.operator with
  | .error e => (s, some e)
  | .ok valBz =>
    let currentCommission := (s.accumulatedCommission valBz).getD 0
    let m1 := Function.update s.accumulatedCommission valBz
      (some (currentCommission + commission))
    let s1 := { s with accumulatedCommission := m1 }
    let currentRewards := (s1.currentRewards valBz).getD 0
    let m2 := Function.update s1.currentRewards valBz
      (some (currentRewards + shared))
    let s2 := { s1 with currentRewards := m2 }
    let outstanding := (s2.outstandingRewards valBz).getD 0
    let m3 := Function.update s2.outstandingRewards valBz
      (some (outstanding + tokens))
    ({ s2 with outstandingRewards := m3 }, none)

/-- The body of one per-vote task of `AllocateTokens`: look the validator up
by consensus address, compute its truncated power fraction and reward, and
allocate.  Returns the updated store, the reward sent over the rewards
channel (`none` when the task failed), and the task error. -/
def voteTask (k : Keeper) (totalPreviousPower feeMultiplier : ℤ)
    (s : State) (vote : VoteInfo) : State × Option ℤ × Option String :=
  match k.validatorByConsAddr vote.address with
  | .error e => (s, none, some e)
  | .ok validator =>
    let powerFraction :=
      quoTruncate (vote.power * precision) (totalPreviousPower * precision)
    let reward := mulTruncate feeMultiplier powerFraction
    match AllocateTokensToValidator k validator reward s with
    | (s1, some e) => (s1, none, some e)
    | (s1, none) => (s1, some reward, none)

/-- The vote loop of `AllocateTokens` under errgroup semantics: every task
runs (the group has no cancellation), rewards of successful tasks are
collected, and the first error is reported after all tasks finish. -/
def processVotes (k : Keeper) (totalPreviousPower feeMultiplier : ℤ) :
    List VoteInfo → State → State × List ℤ × Option String
  | [], s => (s, [], none)
  | vote :: votes, s =>
    match voteTask k totalPreviousPower feeMultiplier s vote with
    | (s1, none, some e) =>
      let r := processVotes k totalPreviousPower feeMultiplier votes s1
      (r.1, r.2.1, some e)
    | (s1, some reward, _) =>
      let r := processVotes k totalPreviousPower feeMultiplier votes s1
      (r.1, reward :: r.2.1, r.2.2)
    | (s1, none, none) =>
      let r := processVotes k totalPreviousPower feeMultiplier votes s1
      (r.1, r.2.1, r.2.2)

/-- `AllocateTokens`: pull the collected fees into distribution custody, on
zero total power fold the envelope into the decimal pool (and, as the code
is written, fall through), scale the envelope by one minus the community
tax, fan out over the votes, subtract every allocated reward from the
envelope, transfer the whole-unit part of the remainder to the community
fund, and store the fractional part into the decimal pool on top of the
pool value read at the start. -/
def AllocateTokens (k : Keeper) (totalPreviousPower : ℤ)
    (bondedVotes : List VoteInfo) (s : State) : State × Option String :=
  let feesCollectedInt := s.feeCollectorBalance
  let feesCollected := feesCollectedInt * precision
  let s0 := { s with
    feeCollectorBalance := s.feeCollectorBalance - feesCollectedInt
    distrBalance := s.distrBalance + feesCollectedInt }
  let feePool := s0.feePool
  let s1 := if totalPreviousPower = 0 then
      { s0 with feePool := ⟨feePool.decimalPool + feesCollected⟩ }
    else s0
  let voteMultiplier := precision - k.communityTax
  let feeMultiplier := mulTruncate feesCollected voteMultiplier
  match processVotes k totalPreviousPower feeMultiplier bondedVotes s1 with
  | (s2, _, some e) => (s2, some e)
  | (s2, rewards, none) =>
    let remaining := rewards.foldl (fun r x => r - x) feesCollected
    let (amt, re) := truncateDecimal remaining
    let s3 := sendToCommunityFund s2 amt
    ({ s3 with feePool := ⟨feePool.decimalPool + re⟩ }, none)

/-- `SendDecimalPoolToCommunityPool`: a pool that is zero is left alone with
no transfer call; otherwise the whole-unit part is transferred to the
community fund and the leftover fraction is stored back. -/
def SendDecimalPoolToCommunityPool (s : State) : State × Option String :=
  let feePool := s.feePool
  if feePool.decimalPool = 0 then (s, none)
  else
    let (amt, re) := truncateDecimal feePool.decimalPool
    let s1 := sendToCommunityFund s amt
    ({ s1 with feePool := ⟨re⟩ }, none)

/-! Canonical description of the vote loop.  Each successful engine call is
the pure store transformation `engineApply`; the data it needs (encoded key,
commission, reward) is computed by `voteData` independently of the store. -/

/-- The store transformation performed by one successful engine call:
add `commission`, `tokens - commission` and `tokens` to the three
accumulator records of `valBz`, absent records read as zero. -/
def engineApply (s : State) (valBz : String) (commission tokens : ℤ) : State :=
  { s with
    accumulatedCommission := Function.update s.accumulatedCommission valBz (some ((s.accumulatedCommission valBz).getD 0 + commission))
    currentRewards := Function.update s.currentRewards valBz (some ((s.currentRewards valBz).getD 0 + (tokens - commission)))
    outstandingRewards := Function.update s.outstandingRewards valBz (some ((s.outstandingRewards valBz).getD 0 + tokens)) }

/-- The reward a vote earns: the distributable envelope times the truncated
power fraction, truncating. -/
def rewardOf (totalPreviousPower feeMultiplier : ℤ) (vote : VoteInfo) : ℤ :=
  mulTruncate feeMultiplier
    (quoTruncate (vote.power * precision) (totalPreviousPower * precision))

/-- The state-independent data of one vote task: encoded validator key,
commission amount and reward, or the first lookup or encoding error. -/
def voteData (k : Keeper) (totalPreviousPower feeMultiplier : ℤ)
    (vote : VoteInfo) : Except String (String × ℤ × ℤ) :=
  match k.validatorByConsAddr vote.address with
  | .error e => .error e
  | .ok validator =>
    let reward := rewardOf totalPreviousPower feeMultiplier vote
    match k.validatorAddressCodec validator.operator with
    | .error e => .error e
    | .ok valBz => .ok (valBz, MulDec reward validator.commission, reward)

/-- The data of the successful vote tasks, in vote order. -/
def okData (k : Keeper) (P fm : ℤ) (votes : List VoteInfo) :
    List (String × ℤ × ℤ) :=
  votes.filterMap (fun v => (voteData k P fm v).toOption)

/-- The first vote-task error in vote order, if any. -/
def firstErr (k : Keeper) (P fm : ℤ) (votes : List VoteInfo) : Option String :=
  votes.findSome? (fun v =>
    match voteData k P fm v with
    | .error e => some e
    | .ok _ => none)

/-- Apply the engine transformations of a list of vote data in order. -/
def applyAll (data : List (String × ℤ × ℤ)) (s : State) : State :=
  data.foldl (fun t d => engineApply t d.1 d.2.1 d.2.2) s

/-- The distinct encoded keys of the validators reached by a vote list. -/
def votedKeys (k : Keeper) (votes : List VoteInfo) : List String :=
  (votes.filterMap (fun v =>
    match k.validatorByConsAddr v.address with
    | .error _ => none
    | .ok validator => (k.validatorAddressCodec validator.operator).toOption)).dedup

/-- Sum of an integer quantity over a list of keys. -/
def sumOver (ks : List String) (f : String → ℤ) : ℤ := (ks.map f).sum

/-- Change of the outstanding-rewards record of one key between two store
states, absent records read as zero. -/
def outstandingDelta (s t : State) (b : String) : ℤ :=
  (t.outstandingRewards b).getD 0 - (s.outstandingRewards b).getD 0

/-- The envelope of internal units left after subtracting every allocated
reward: the collected fees minus the rewards of the successful tasks. -/
def remainingAfter (k : Keeper) (P : ℤ) (votes : List VoteInfo) (s : State) : ℤ :=
  s.feeCollectorBalance * precision -
    ((okData k P (mulTruncate (s.feeCollectorBalance * precision)
      (precision - k.communityTax)) votes).map (fun d => d.2.2)).sum

/-- The fee multiplier of a cycle started from store state `s`. -/
def feeMult (k : Keeper) (s : State) : ℤ :=
  mulTruncate (s.feeCollectorBalance * precision) (precision - k.communityTax)

/-- The store after the collected fees move into distribution custody. -/
def afterTransfer (s : State) : State :=
  { s with
    feeCollectorBalance := s.feeCollectorBalance - s.feeCollectorBalance
    distrBalance := s.distrBalance + s.feeCollectorBalance }

/-- The final store write of a successful cycle: community-fund transfer of
the whole-unit remainder and the fee-pool write on top of the pool value
read at the start. -/
def finishCycle (s : State) (pool0 re amt : ℤ) : State :=
  { sendToCommunityFund s amt with feePool := ⟨pool0 + re⟩ }

/-- A store state whose three accumulator records of one key are erased,
modelling a validator with no prior records. -/
def eraseRecords (s : State) (valBz : String) : State :=
  { s with
    accumulatedCommission := Function.update s.accumulatedCommission valBz none
    currentRewards := Function.update s.currentRewards valBz none
    outstandingRewards := Function.update s.outstandingRewards valBz none }

/-- A store state whose three accumulator records of one key are explicitly
present with value zero. -/
def zeroRecords (s : State) (valBz : String) : State :=
  { s with
    accumulatedCommission := Function.update s.accumulatedCommission valBz (some 0)
    currentRewards := Function.update s.currentRewards valBz (some 0)
    outstandingRewards := Function.update s.outstandingRewards valBz (some 0) }

/-- A concrete keeper used to evaluate the model: two known validators with
commission rates 0.1 and 0, and a community tax of 0.02. -/
def kEx : Keeper :=
  { validatorByConsAddr := fun a =>
      if a = "a" then .ok ⟨"va", 10 ^ 17⟩
      else if a = "b" then .ok ⟨"vb", 0⟩
      else .error "unknown validator"
    validatorAddressCodec := fun o =>
      if o = "va" then .ok "VA"
      else if o = "vb" then .ok "VB"
      else .error "bad operator address"
    communityTax := 2 * 10 ^ 16 }

/-- A concrete store: 100 whole units collected, a decimal pool of 0.5, and
no accumulator records. -/
def sEx : State :=
  { feeCollectorBalance := 100
    distrBalance := 0
    communityPoolBalance := 0
    feePool := ⟨5 * 10 ^ 17⟩
    accumulatedCommission := fun _ => none
    currentRewards := fun _ => none
    outstandingRewards := fun _ => none
    fundTransfers := [] }

/-- A concrete store whose decimal pool holds exactly 1.999999 units. -/
def sFlush : State :=
  { feeCollectorBalance := 0
    distrBalance := 3
    communityPoolBalance := 0
    feePool := ⟨1999999 * 10 ^ 12⟩
    accumulatedCommission := fun _ => none
    currentRewards := fun _ => none
    outstandingRewards := fun _ => none
    fundTransfers := [] }

/-- The two-validator vote list of the spec example: powers 70 and 30. -/
def votesEx : List VoteInfo := [⟨"a", 70⟩, ⟨"b", 30⟩]

/-- The example vote list reversed, a permutation of `votesEx`. -/
def votesExRev : List VoteInfo := [⟨"b", 30⟩, ⟨"a", 70⟩]

/-- The store after the zero-power branch folds the envelope into the
decimal pool; as the code is written the branch then falls through into the
rest of the cycle. -/
def zeroPowerState (s : State) : State :=
  { afterTransfer s with feePool := ⟨s.feePool.decimalPool + s.feeCollectorBalance * precision⟩ }

/-- A vote list carrying a negative power. -/
def votesNeg : List VoteInfo := [⟨"a", -1⟩]

/-- The first example validator: operator "va", commission rate 0.1. -/
def valA : ValidatorI := ⟨"va", 10 ^ 17⟩

/-- A validator whose operator address the example codec cannot encode. -/
def valZ : ValidatorI := ⟨"zz", 5 * 10 ^ 16⟩

lemma allocateToValidator_ok (k : Keeper) (val : ValidatorI) (tokens : ℤ)
    (s : State) (valBz : String)
    (h : k.validatorAddressCodec val.operator = .ok valBz) :
    AllocateTokensToValidator k val tokens s =
      (engineApply s valBz (MulDec tokens val.commission) tokens, none) := by
  simp only [AllocateTokensToValidator, h, engineApply]

lemma allocateToValidator_err (k : Keeper) (val : ValidatorI) (tokens : ℤ)
    (s : State) (e : String)
    (h : k.validatorAddressCodec val.operator = .error e) :
    AllocateTokensToValidator k val tokens s = (s, some e) := by
  simp only [AllocateTokensToValidator, h]

lemma voteTask_of_ok (k : Keeper) (P fm : ℤ) (s : State) (v : VoteInfo)
    (d : String × ℤ × ℤ) (h : voteData k P fm v = .ok d) :
    voteTask k P fm s v = (engineApply s d.1 d.2.1 d.2.2, some d.2.2, none) := by
  unfold voteData at h
  unfold voteTask
  cases hl : k.validatorByConsAddr v.address with
  | error e => rw [hl] at h; exact absurd h (by simp)
  | ok validator =>
    rw [hl] at h
    dsimp only at h ⊢
    cases hc : k.validatorAddressCodec validator.operator with
    | error e => rw [hc] at h; exact absurd h (by simp)
    | ok valBz =>
      rw [hc] at h
      simp only [Except.ok.injEq] at h
      subst h
      rw [allocateToValidator_ok k validator _ s valBz hc]
      rfl

lemma voteTask_of_err (k : Keeper) (P fm : ℤ) (s : State) (v : VoteInfo)
    (e : String) (h : voteData k P fm v = .error e) :
    voteTask k P fm s v = (s, none, some e) := by
  unfold voteData at h
  unfold voteTask
  cases hl : k.validatorByConsAddr v.address with
  | error e1 => rw [hl] at h; simp only [Except.error.injEq] at h; subst h; rfl
  | ok validator =>
    rw [hl] at h
    dsimp only at h ⊢
    cases hc : k.validatorAddressCodec validator.operator with
    | error e1 =>
      rw [hc] at h
      simp only [Except.error.injEq] at h
      subst h
      rw [allocateToValidator_err k validator _ s _ hc]
    | ok valBz => rw [hc] at h; exact absurd h (by simp)

/-- The vote loop equals its canonical description: the successful tasks are
applied in order, their rewards are collected in order, and the reported
error is the first task error. -/
lemma processVotes_eq (k : Keeper) (P fm : ℤ) :
    ∀ (votes : List VoteInfo) (s : State),
      processVotes k P fm votes s =
        (applyAll (okData k P fm votes) s,
         (okData k P fm votes).map (fun d => d.2.2),
         firstErr k P fm votes)
  | [], s => by
      simp [processVotes, okData, firstErr, applyAll]
  | v :: votes, s => by
      cases hv : voteData k P fm v with
      | error e =>
        rw [processVotes, voteTask_of_err k P fm s v e hv]
        simp only [processVotes_eq k P fm votes s]
        simp [okData, firstErr, applyAll, hv, Except.toOption]
      | ok d =>
        rw [processVotes, voteTask_of_ok k P fm s v d hv]
        simp only [processVotes_eq k P fm votes (engineApply s d.1 d.2.1 d.2.2)]
        simp [okData, firstErr, applyAll, hv, Except.toOption]

lemma precision_pos : (0:ℤ) < precision := by norm_num [precision]

lemma tdiv_nonneg_of_nonneg {a b : ℤ} (ha : 0 ≤ a) (hb : 0 ≤ b) :
    0 ≤ Int.tdiv a b := by
  rw [Int.tdiv_eq_ediv ha hb]
  exact Int.ediv_nonneg ha hb

lemma tdiv_mul_le {a b : ℤ} (ha : 0 ≤ a) (hb : 0 < b) :
    b * Int.tdiv a b ≤ a := by
  rw [Int.tdiv_eq_ediv ha (le_of_lt hb)]
  have := Int.ediv_mul_le a (ne_of_gt hb)
  linarith

lemma lt_tdiv_add_one_mul {a b : ℤ} (ha : 0 ≤ a) (hb : 0 < b) :
    a < b * (Int.tdiv a b + 1) := by
  rw [Int.tdiv_eq_ediv ha (le_of_lt hb)]
  have := Int.lt_ediv_add_one_mul_self a hb
  linarith

lemma sumOver_zero (ks : List String) (f : String → ℤ) (h : ∀ b ∈ ks, f b = 0) :
    sumOver ks f = 0 := by
  unfold sumOver
  refine List.sum_eq_zero ?_
  intro x hx
  rcases List.mem_map.mp hx with ⟨b, hb, rfl⟩
  exact h b hb

lemma sumOver_add (ks : List String) (f g : String → ℤ) :
    sumOver ks (fun b => f b + g b) = sumOver ks f + sumOver ks g := by
  simp [sumOver, List.sum_map_add]

lemma sumOver_single (f : String → ℤ) (a : String) (r : ℤ)
    (hfa : f a = r) (h0 : ∀ b, b ≠ a → f b = 0) :
    ∀ ks : List String, ks.Nodup → a ∈ ks → sumOver ks f = r := by
  intro ks
  induction ks with
  | nil => intro _ ha; exact absurd ha (List.not_mem_nil a)
  | cons c ks ih =>
    intro hnd ha
    rcases List.nodup_cons.mp hnd with ⟨hc, hnd2⟩
    rcases List.mem_cons.mp ha with h | h
    · subst h
      have hz : sumOver ks f = 0 :=
        sumOver_zero ks f (fun b hb => h0 b (by rintro rfl; exact hc hb))
      simp only [sumOver, List.map_cons, List.sum_cons] at hz ⊢
      rw [hfa, hz, add_zero]
    · have hc0 : f c = 0 := h0 c (by rintro rfl; exact hc h)
      have hrest := ih hnd2 h
      simp only [sumOver, List.map_cons, List.sum_cons] at hrest ⊢
      rw [hc0, hrest, zero_add]

lemma outstandingDelta_engineApply (s : State) (valBz : String) (c t : ℤ) :
    outstandingDelta s (engineApply s valBz c t) valBz = t := by
  simp [outstandingDelta, engineApply, Function.update_same]

lemma outstandingDelta_engineApply_ne (s : State) (valBz : String) (c t : ℤ)
    (b : String) (h : b ≠ valBz) :
    outstandingDelta s (engineApply s valBz c t) b = 0 := by
  simp [outstandingDelta, engineApply, Function.update_noteq h]

lemma applyAll_scalars : ∀ (data : List (String × ℤ × ℤ)) (s : State),
    (applyAll data s).feePool = s.feePool ∧
    (applyAll data s).feeCollectorBalance = s.feeCollectorBalance ∧
    (applyAll data s).distrBalance = s.distrBalance ∧
    (applyAll data s).communityPoolBalance = s.communityPoolBalance ∧
    (applyAll data s).fundTransfers = s.fundTransfers
  | [], _ => ⟨rfl, rfl, rfl, rfl, rfl⟩
  | d :: data, s => applyAll_scalars data (engineApply s d.1 d.2.1 d.2.2)

lemma applyAll_sum : ∀ (data : List (String × ℤ × ℤ)) (s : State)
    (ks : List String), ks.Nodup → (∀ d ∈ data, d.1 ∈ ks) →
    sumOver ks (outstandingDelta s (applyAll data s)) =
      (data.map (fun d => d.2.2)).sum
  | [], s, ks, _, _ => by
    simp only [applyAll, List.foldl_nil, List.map_nil, List.sum_nil]
    exact sumOver_zero ks _ (fun b _ => by simp [outstandingDelta])
  | d :: data, s, ks, hnd, hks => by
    have hcons : applyAll (d :: data) s =
        applyAll data (engineApply s d.1 d.2.1 d.2.2) := rfl
    have htri : sumOver ks
          (outstandingDelta s (applyAll data (engineApply s d.1 d.2.1 d.2.2))) =
        sumOver ks (fun b =>
          outstandingDelta s (engineApply s d.1 d.2.1 d.2.2) b +
          outstandingDelta (engineApply s d.1 d.2.1 d.2.2)
            (applyAll data (engineApply s d.1 d.2.1 d.2.2)) b) := by
      apply congrArg
      funext b
      unfold outstandingDelta
      ring
    have h1 : sumOver ks (outstandingDelta s (engineApply s d.1 d.2.1 d.2.2)) =
        d.2.2 :=
      sumOver_single _ d.1 d.2.2 (outstandingDelta_engineApply s d.1 d.2.1 d.2.2)
        (fun b hb => outstandingDelta_engineApply_ne s d.1 d.2.1 d.2.2 b hb)
        ks hnd (hks d (List.mem_cons_self d data))
    have h2 := applyAll_sum data (engineApply s d.1 d.2.1 d.2.2) ks hnd
      (fun x hx => hks x (List.mem_cons_of_mem d hx))
    rw [hcons, htri, sumOver_add, h1, h2, List.map_cons, List.sum_cons]

lemma foldl_sub : ∀ (l : List ℤ) (a : ℤ),
    l.foldl (fun r x => r - x) a = a - l.sum
  | [], a => by simp
  | x :: l, a => by
    rw [List.foldl_cons, foldl_sub l (a - x), List.sum_cons]
    ring

lemma allocateTokens_ok_case (k : Keeper) (P : ℤ) (votes : List VoteInfo)
    (s : State) (hP : ¬ P = 0)
    (he : firstErr k P (feeMult k s) votes = none) :
    AllocateTokens k P votes s =
      (finishCycle (applyAll (okData k P (feeMult k s) votes) (afterTransfer s))
        s.feePool.decimalPool
        (remainingAfter k P votes s -
          precision * Int.tdiv (remainingAfter k P votes s) precision)
        (Int.tdiv (remainingAfter k P votes s) precision), none) := by
  unfold AllocateTokens
  dsimp only
  rw [if_neg hP, processVotes_eq]
  simp only [feeMult] at he
  rw [he]
  simp only [foldl_sub, truncateDecimal, finishCycle, feeMult, remainingAfter,
    afterTransfer, sendToCommunityFund]

lemma allocateTokens_err_case (k : Keeper) (P : ℤ) (votes : List VoteInfo)
    (s : State) (e : String) (hP : ¬ P = 0)
    (he : firstErr k P (feeMult k s) votes = some e) :
    AllocateTokens k P votes s =
      (applyAll (okData k P (feeMult k s) votes) (afterTransfer s), some e) := by
  unfold AllocateTokens
  dsimp only
  rw [if_neg hP, processVotes_eq]
  simp only [feeMult] at he
  rw [he]
  simp only [feeMult, afterTransfer]

lemma finishCycle_outstanding (t : State) (p re amt : ℤ) :
    (finishCycle t p re amt).outstandingRewards = t.outstandingRewards := rfl

lemma finishCycle_community (t : State) (p re amt : ℤ) :
    (finishCycle t p re amt).communityPoolBalance =
      t.communityPoolBalance + amt := rfl

lemma finishCycle_feePool (t : State) (p re amt : ℤ) :
    (finishCycle t p re amt).feePool = ⟨p + re⟩ := rfl

lemma okData_key_mem (k : Keeper) (P fm : ℤ) (votes : List VoteInfo)
    (d : String × ℤ × ℤ) (hd : d ∈ okData k P fm votes) :
    d.1 ∈ votedKeys k votes := by
  rcases List.mem_filterMap.mp hd with ⟨v, hv, hvd⟩
  unfold votedKeys
  rw [List.mem_dedup]
  apply List.mem_filterMap.mpr
  refine ⟨v, hv, ?_⟩
  unfold voteData at hvd
  cases hl : k.validatorByConsAddr v.address with
  | error e => rw [hl] at hvd; simp [Except.toOption] at hvd
  | ok validator =>
    rw [hl] at hvd
    dsimp only at hvd
    dsimp only
    cases hc : k.validatorAddressCodec validator.operator with
    | error e => rw [hc] at hvd; simp [Except.toOption] at hvd
    | ok bz =>
      rw [hc] at hvd
      simp only [Except.toOption, Option.some.injEq] at hvd
      subst hvd
      simp [Except.toOption, hc]

/-- C1.  Conservation: for every fee envelope, community-tax rate in
[0, 1), and vote list of non-negative powers with positive total power, a
successful run of AllocateTokens satisfies exactly: the sum over all voted
validators of the outstanding-rewards deltas, plus the amount transferred
to the community fund, plus the change of the decimal remainder pool,
equals the envelope. -/
theorem allocateTokens_conservation (k : Keeper) (s : State) (P : ℤ)
    (votes : List VoteInfo)
    (hP : 0 < P)
    (hpow : ∀ v ∈ votes, 0 ≤ v.power)
    (htax0 : 0 ≤ k.communityTax) (htax1 : k.communityTax < precision)
    (hrun : (AllocateTokens k P votes s).2 = none) :
    sumOver (votedKeys k votes)
        (outstandingDelta s (AllocateTokens k P votes s).1)
      + ((AllocateTokens k P votes s).1.communityPoolBalance
          - s.communityPoolBalance) * precision
      + ((AllocateTokens k P votes s).1.feePool.decimalPool
          - s.feePool.decimalPool)
      = s.feeCollectorBalance * precision := by
  have hP0 : ¬ P = 0 := by omega
  cases herr : firstErr k P (feeMult k s) votes with
  | some e =>
    rw [allocateTokens_err_case k P votes s e hP0 herr] at hrun
    simp at hrun
  | none =>
    rw [allocateTokens_ok_case k P votes s hP0 herr]
    dsimp only
    have h1 : outstandingDelta s
        (finishCycle (applyAll (okData k P (feeMult k s) votes) (afterTransfer s))
          s.feePool.decimalPool
          (remainingAfter k P votes s -
            precision * Int.tdiv (remainingAfter k P votes s) precision)
          (Int.tdiv (remainingAfter k P votes s) precision)) =
        outstandingDelta (afterTransfer s)
          (applyAll (okData k P (feeMult k s) votes) (afterTransfer s)) := by
      funext b
      simp [outstandingDelta, finishCycle, sendToCommunityFund, afterTransfer]
    rw [h1]
    have hsum : sumOver (votedKeys k votes)
        (outstandingDelta (afterTransfer s)
          (applyAll (okData k P (feeMult k s) votes) (afterTransfer s))) =
        ((okData k P (feeMult k s) votes).map (fun d => d.2.2)).sum :=
      applyAll_sum _ _ _ (List.nodup_dedup _)
        (fun d hd => okData_key_mem k P (feeMult k s) votes d hd)
    rw [hsum, finishCycle_community, finishCycle_feePool,
      (applyAll_scalars (okData k P (feeMult k s) votes) (afterTransfer s)).2.2.2.1]
    have hR : remainingAfter k P votes s =
        s.feeCollectorBalance * precision -
          ((okData k P (feeMult k s) votes).map (fun d => d.2.2)).sum := rfl
    have hcomm : (afterTransfer s).communityPoolBalance =
        s.communityPoolBalance := rfl
    rw [hcomm]
    dsimp only
    linarith [hR]

/-- C1 witness: the conservation identity instantiated on the spec example
scenario (envelope 100, tax 0.02, powers 70 and 30). -/
theorem allocateTokens_conservation_witness :
    (0:ℤ) < 100 ∧ (∀ v ∈ votesEx, 0 ≤ v.power) ∧ 0 ≤ kEx.communityTax ∧
    kEx.communityTax < precision ∧
    (AllocateTokens kEx 100 votesEx sEx).2 = none ∧
    (sumOver (votedKeys kEx votesEx)
        (outstandingDelta sEx (AllocateTokens kEx 100 votesEx sEx).1)
      + ((AllocateTokens kEx 100 votesEx sEx).1.communityPoolBalance
          - sEx.communityPoolBalance) * precision
      + ((AllocateTokens kEx 100 votesEx sEx).1.feePool.decimalPool
          - sEx.feePool.decimalPool)
      = sEx.feeCollectorBalance * precision) :=
  ⟨by decide, by decide, by decide, by decide, by decide,
   allocateTokens_conservation kEx sEx 100 votesEx (by decide) (by decide)
     (by decide) (by decide) (by decide)⟩

/-- C2.  The code, run at the failing input (zero total power, no votes, an
envelope of 100 whole units, a decimal pool of 0.5): the cycle does NOT end
after folding the envelope into the pool.  The zero-power fee-pool write is
overwritten by the final fee-pool write, which is computed from the stale
pool value read at the start, so the pool is left unchanged, and the whole
truncated envelope is transferred to the community fund. -/
theorem allocateTokens_zero_power_bug :
    (AllocateTokens kEx 0 [] sEx).2 = none ∧
    (AllocateTokens kEx 0 [] sEx).1.feePool = sEx.feePool ∧
    (AllocateTokens kEx 0 [] sEx).1.communityPoolBalance =
      sEx.communityPoolBalance + 100 ∧
    (AllocateTokens kEx 0 [] sEx).1.fundTransfers = [100] := by
  refine ⟨by decide, by decide, by decide, by decide⟩

/-- C3.  Commission truncation: for every validator with commission rate
c >= 0 and non-negative reward R, AllocateTokensToValidator credits the
validator commission record with exactly MulDec R c, which is the
truncation toward zero of R*c: it never exceeds the exact product, and the
exact product is below the next representable step. -/
theorem allocateToValidator_commission_truncated (k : Keeper)
    (val : ValidatorI) (R : ℤ) (s : State) (valBz : String)
    (hbz : k.validatorAddressCodec val.operator = .ok valBz)
    (hR : 0 ≤ R) (hc : 0 ≤ val.commission) :
    ((AllocateTokensToValidator k val R s).1.accumulatedCommission valBz).getD 0
        - (s.accumulatedCommission valBz).getD 0 = MulDec R val.commission
    ∧ precision * MulDec R val.commission ≤ R * val.commission
    ∧ R * val.commission < precision * (MulDec R val.commission + 1) := by
  have h0 : (0:ℤ) ≤ R * val.commission := mul_nonneg hR hc
  refine ⟨?_, ?_, ?_⟩
  · rw [allocateToValidator_ok k val R s valBz hbz]
    simp [engineApply, Function.update_same]
  · unfold MulDec mulTruncate
    exact tdiv_mul_le h0 precision_pos
  · unfold MulDec mulTruncate
    exact lt_tdiv_add_one_mul h0 precision_pos

/-- C3 witness: the commission credited for reward 68.6 at rate 0.1 is the
truncation of the product. -/
theorem allocateToValidator_commission_truncated_witness :
    kEx.validatorAddressCodec valA.operator = .ok "VA" ∧ (0:ℤ) ≤ 686 * 10 ^ 17 ∧
    0 ≤ valA.commission ∧
    (((AllocateTokensToValidator kEx valA (686 * 10 ^ 17) sEx).1.accumulatedCommission
        "VA").getD 0 - (sEx.accumulatedCommission "VA").getD 0 =
      MulDec (686 * 10 ^ 17) valA.commission
    ∧ precision * MulDec (686 * 10 ^ 17) valA.commission ≤
        686 * 10 ^ 17 * valA.commission
    ∧ 686 * 10 ^ 17 * valA.commission <
        precision * (MulDec (686 * 10 ^ 17) valA.commission + 1)) :=
  ⟨by rfl, by decide, by decide,
   allocateToValidator_commission_truncated kEx valA (686 * 10 ^ 17) sEx "VA"
     (by rfl) (by decide) (by decide)⟩

/-- C4.  Outstanding-rewards relationship: if the outstanding record of a
key equals the sum of the accumulated-commission and current-rewards
records before a successful allocation, the equality holds again after
it. -/
theorem allocateToValidator_outstanding_invariant (k : Keeper)
    (val : ValidatorI) (R : ℤ) (s : State) (valBz b : String)
    (hbz : k.validatorAddressCodec val.operator = .ok valBz)
    (hinv : (s.outstandingRewards b).getD 0 =
      (s.accumulatedCommission b).getD 0 + (s.currentRewards b).getD 0) :
    ((AllocateTokensToValidator k val R s).1.outstandingRewards b).getD 0 =
      ((AllocateTokensToValidator k val R s).1.accumulatedCommission b).getD 0 +
      ((AllocateTokensToValidator k val R s).1.currentRewards b).getD 0 := by
  rw [allocateToValidator_ok k val R s valBz hbz]
  by_cases hb : b = valBz
  · subst hb
    simp only [engineApply, Function.update_same, Option.getD_some]
    linarith [hinv]
  · simp only [engineApply, Function.update_noteq hb]
    exact hinv

/-- C4 witness: the relationship is preserved at the example validator
starting from empty records. -/
theorem allocateToValidator_outstanding_invariant_witness :
    kEx.validatorAddressCodec valA.operator = .ok "VA" ∧
    (sEx.outstandingRewards "VA").getD 0 =
      (sEx.accumulatedCommission "VA").getD 0 + (sEx.currentRewards "VA").getD 0 ∧
    ((AllocateTokensToValidator kEx valA (686 * 10 ^ 17) sEx).1.outstandingRewards
        "VA").getD 0 =
      ((AllocateTokensToValidator kEx valA (686 * 10 ^ 17) sEx).1.accumulatedCommission
        "VA").getD 0 +
      ((AllocateTokensToValidator kEx valA (686 * 10 ^ 17) sEx).1.currentRewards
        "VA").getD 0 :=
  ⟨by rfl, by decide,
   allocateToValidator_outstanding_invariant kEx valA (686 * 10 ^ 17) sEx "VA" "VA"
     (by rfl) (by decide)⟩

/-- C7.  Idempotent absence handling: allocating to a validator whose three
accumulator records are absent succeeds and produces exactly the same
result as allocating when the records are explicitly present with value
zero. -/
theorem allocateToValidator_absent_as_zero (k : Keeper) (val : ValidatorI)
    (R : ℤ) (s : State) (valBz : String)
    (hbz : k.validatorAddressCodec val.operator = .ok valBz) :
    AllocateTokensToValidator k val R (eraseRecords s valBz) =
      AllocateTokensToValidator k val R (zeroRecords s valBz) ∧
    (AllocateTokensToValidator k val R (eraseRecords s valBz)).2 = none := by
  rw [allocateToValidator_ok k val R _ valBz hbz,
    allocateToValidator_ok k val R _ valBz hbz]
  refine ⟨?_, rfl⟩
  simp [engineApply, eraseRecords, zeroRecords, Function.update_idem,
    Function.update_same]

/-- C7 witness: absence behaves as zero at the example validator. -/
theorem allocateToValidator_absent_as_zero_witness :
    kEx.validatorAddressCodec valA.operator = .ok "VA" ∧
    (AllocateTokensToValidator kEx valA 7 (eraseRecords sEx "VA") =
      AllocateTokensToValidator kEx valA 7 (zeroRecords sEx "VA") ∧
    (AllocateTokensToValidator kEx valA 7 (eraseRecords sEx "VA")).2 = none) :=
  ⟨by rfl, allocateToValidator_absent_as_zero kEx valA 7 sEx "VA" (by rfl)⟩

/-- C10.  If the address codec fails to encode the operator address, the
engine returns exactly that error and the store state it returns is the
input store state, with no accumulator record written. -/
theorem allocateToValidator_codec_error (k : Keeper) (val : ValidatorI)
    (R : ℤ) (s : State) (e : String)
    (hbz : k.validatorAddressCodec val.operator = .error e) :
    AllocateTokensToValidator k val R s = (s, some e) := by
  simp only [AllocateTokensToValidator, hbz]

/-- C10 witness: the engine propagates the codec error for an unknown
operator address and leaves the store untouched. -/
theorem allocateToValidator_codec_error_witness :
    kEx.validatorAddressCodec valZ.operator = .error "bad operator address" ∧
    AllocateTokensToValidator kEx valZ 7 sEx = (sEx, some "bad operator address") :=
  ⟨by rfl,
   allocateToValidator_codec_error kEx valZ 7 sEx "bad operator address" (by rfl)⟩

/-- C6.  Flush boundary: on a non-negative pool the flush returns no error;
a zero pool is a no-op with no transfer call; a non-zero pool transfers
exactly the truncated whole-unit part and stores back exactly the leftover
fraction; the transferred amount is never negative. -/
theorem sendDecimalPool_flush (s : State) (hpool : 0 ≤ s.feePool.decimalPool) :
    (SendDecimalPoolToCommunityPool s).2 = none ∧
    (s.feePool.decimalPool = 0 → (SendDecimalPoolToCommunityPool s).1 = s) ∧
    (¬ s.feePool.decimalPool = 0 →
      (SendDecimalPoolToCommunityPool s).1 =
        { sendToCommunityFund s (Int.tdiv s.feePool.decimalPool precision) with feePool := ⟨s.feePool.decimalPool - precision * Int.tdiv s.feePool.decimalPool precision⟩ }) ∧
    0 ≤ Int.tdiv s.feePool.decimalPool precision := by
  unfold SendDecimalPoolToCommunityPool
  dsimp only
  by_cases h0 : s.feePool.decimalPool = 0
  · rw [if_pos h0]
    refine ⟨rfl, fun _ => rfl, fun hne => absurd h0 hne, ?_⟩
    rw [h0]
    decide
  · rw [if_neg h0]
    exact ⟨rfl, fun h => absurd h h0, fun _ => rfl,
      tdiv_nonneg_of_nonneg hpool (le_of_lt precision_pos)⟩

/-- C6 witness: a pool of exactly 1.999999 units flushes exactly 1 whole
unit to the community fund and retains exactly 0.999999. -/
theorem sendDecimalPool_flush_witness :
    ((0:ℤ) ≤ sFlush.feePool.decimalPool ∧
      (SendDecimalPoolToCommunityPool sFlush).2 = none) ∧
    (SendDecimalPoolToCommunityPool sFlush).1.feePool.decimalPool =
      999999 * 10 ^ 12 ∧
    (SendDecimalPoolToCommunityPool sFlush).1.fundTransfers =
      sFlush.fundTransfers ++ [1] ∧
    (SendDecimalPoolToCommunityPool sFlush).1.communityPoolBalance =
      sFlush.communityPoolBalance + 1 :=
  ⟨⟨by decide, (sendDecimalPool_flush sFlush (by decide)).1⟩,
   by decide, by decide, by decide⟩

lemma engineApply_comm (s : State) (b₁ : String) (c₁ t₁ : ℤ) (b₂ : String)
    (c₂ t₂ : ℤ) :
    engineApply (engineApply s b₁ c₁ t₁) b₂ c₂ t₂ =
      engineApply (engineApply s b₂ c₂ t₂) b₁ c₁ t₁ := by
  by_cases h : b₁ = b₂
  · subst h
    unfold engineApply
    refine State.ext rfl rfl rfl rfl ?_ ?_ ?_ rfl <;>
      dsimp only <;>
      rw [Function.update_same, Function.update_same, Function.update_idem,
        Function.update_idem, Option.getD_some, Option.getD_some]
    · have hv : (s.accumulatedCommission b₁).getD 0 + c₁ + c₂ =
          (s.accumulatedCommission b₁).getD 0 + c₂ + c₁ := by ring
      rw [hv]
    · have hv : (s.currentRewards b₁).getD 0 + (t₁ - c₁) + (t₂ - c₂) =
          (s.currentRewards b₁).getD 0 + (t₂ - c₂) + (t₁ - c₁) := by ring
      rw [hv]
    · have hv : (s.outstandingRewards b₁).getD 0 + t₁ + t₂ =
          (s.outstandingRewards b₁).getD 0 + t₂ + t₁ := by ring
      rw [hv]
  · unfold engineApply
    refine State.ext rfl rfl rfl rfl ?_ ?_ ?_ rfl <;>
      dsimp only <;>
      rw [Function.update_noteq (Ne.symm h), Function.update_noteq h,
        Function.update_comm h]

lemma applyAll_perm (data data' : List (String × ℤ × ℤ))
    (h : data.Perm data') (s : State) :
    applyAll data s = applyAll data' s := by
  unfold applyAll
  haveI : RightCommutative
      (fun (t : State) (d : String × ℤ × ℤ) => engineApply t d.1 d.2.1 d.2.2) :=
    ⟨fun t a b => engineApply_comm t a.1 a.2.1 a.2.2 b.1 b.2.1 b.2.2⟩
  exact h.foldl_eq s

lemma firstErr_perm_none (k : Keeper) (P fm : ℤ)
    (votes votes' : List VoteInfo) (h : votes.Perm votes') :
    firstErr k P fm votes = none ↔ firstErr k P fm votes' = none := by
  unfold firstErr
  rw [List.findSome?_eq_none_iff, List.findSome?_eq_none_iff]
  constructor <;> intro hall v hv
  · exact hall v (h.mem_iff.mpr hv)
  · exact hall v (h.mem_iff.mp hv)

lemma remainingAfter_perm (k : Keeper) (P : ℤ) (votes votes' : List VoteInfo)
    (h : votes.Perm votes') (s : State) :
    remainingAfter k P votes s = remainingAfter k P votes' s := by
  have h2 : ((okData k P (feeMult k s) votes).map (fun d => d.2.2)).sum =
      ((okData k P (feeMult k s) votes').map (fun d => d.2.2)).sum :=
    List.Perm.sum_eq (List.Perm.map _ (List.Perm.filterMap _ h))
  unfold feeMult at h2
  unfold remainingAfter
  rw [h2]

lemma allocateTokens_ok_case_zero (k : Keeper) (votes : List VoteInfo)
    (s : State) (he : firstErr k 0 (feeMult k s) votes = none) :
    AllocateTokens k 0 votes s =
      (finishCycle (applyAll (okData k 0 (feeMult k s) votes) (zeroPowerState s))
        s.feePool.decimalPool
        (remainingAfter k 0 votes s -
          precision * Int.tdiv (remainingAfter k 0 votes s) precision)
        (Int.tdiv (remainingAfter k 0 votes s) precision), none) := by
  unfold AllocateTokens
  dsimp only
  rw [if_pos rfl, processVotes_eq]
  simp only [feeMult] at he
  rw [he]
  simp only [foldl_sub, truncateDecimal, finishCycle, feeMult, remainingAfter,
    afterTransfer, sendToCommunityFund, zeroPowerState]

lemma allocateTokens_err_case_zero (k : Keeper) (votes : List VoteInfo)
    (s : State) (e : String)
    (he : firstErr k 0 (feeMult k s) votes = some e) :
    AllocateTokens k 0 votes s =
      (applyAll (okData k 0 (feeMult k s) votes) (zeroPowerState s), some e) := by
  unfold AllocateTokens
  dsimp only
  rw [if_pos rfl, processVotes_eq]
  simp only [feeMult] at he
  rw [he]
  simp only [feeMult, afterTransfer, zeroPowerState]

/-- C5.  Order independence: running AllocateTokens on a permutation of the
vote list from the same store state produces the identical final store (in
particular identical accumulator maps, community-fund transfer and decimal
remainder pool), and one ordering succeeds exactly when the other does. -/
theorem allocateTokens_order_independence (k : Keeper) (s : State) (P : ℤ)
    (votes votes' : List VoteInfo) (hperm : votes.Perm votes') :
    (AllocateTokens k P votes s).1 = (AllocateTokens k P votes' s).1 ∧
    ((AllocateTokens k P votes s).2 = none ↔
      (AllocateTokens k P votes' s).2 = none) := by
  have hdata : (okData k P (feeMult k s) votes).Perm
      (okData k P (feeMult k s) votes') := hperm.filterMap _
  have hnone := firstErr_perm_none k P (feeMult k s) votes votes' hperm
  by_cases hP : P = 0
  · subst hP
    cases he : firstErr k 0 (feeMult k s) votes with
    | none =>
      have he' : firstErr k 0 (feeMult k s) votes' = none := hnone.mp he
      rw [allocateTokens_ok_case_zero k votes s he,
        allocateTokens_ok_case_zero k votes' s he',
        applyAll_perm _ _ hdata, remainingAfter_perm k 0 votes votes' hperm]
      exact ⟨rfl, Iff.rfl⟩
    | some e =>
      have he' : ¬ firstErr k 0 (feeMult k s) votes' = none := by
        intro hcon
        rw [he] at hnone
        exact absurd (hnone.mpr hcon) (by simp)
      rcases Option.ne_none_iff_exists.mp (by simpa using he') with ⟨e', he2⟩
      rw [allocateTokens_err_case_zero k votes s e he,
        allocateTokens_err_case_zero k votes' s e' he2.symm,
        applyAll_perm _ _ hdata]
      exact ⟨rfl, by simp⟩
  · cases he : firstErr k P (feeMult k s) votes with
    | none =>
      have he' : firstErr k P (feeMult k s) votes' = none := hnone.mp he
      rw [allocateTokens_ok_case k P votes s hP he,
        allocateTokens_ok_case k P votes' s hP he',
        applyAll_perm _ _ hdata, remainingAfter_perm k P votes votes' hperm]
      exact ⟨rfl, Iff.rfl⟩
    | some e =>
      have he' : ¬ firstErr k P (feeMult k s) votes' = none := by
        intro hcon
        rw [he] at hnone
        exact absurd (hnone.mpr hcon) (by simp)
      rcases Option.ne_none_iff_exists.mp (by simpa using he') with ⟨e', he2⟩
      rw [allocateTokens_err_case k P votes s e hP he,
        allocateTokens_err_case k P votes' s e' hP he2.symm,
        applyAll_perm _ _ hdata]
      exact ⟨rfl, by simp⟩

/-- C5 witness: the example vote list and its reversal produce the same
final store on the example state. -/
theorem allocateTokens_order_independence_witness :
    votesEx.Perm votesExRev ∧
    ((AllocateTokens kEx 100 votesEx sEx).1 =
        (AllocateTokens kEx 100 votesExRev sEx).1 ∧
      ((AllocateTokens kEx 100 votesEx sEx).2 = none ↔
        (AllocateTokens kEx 100 votesExRev sEx).2 = none)) :=
  ⟨by decide,
   allocateTokens_order_independence kEx sEx 100 votesEx votesExRev (by decide)⟩

lemma voteData_ok_reward (k : Keeper) (P fm : ℤ) (v : VoteInfo)
    (d : String × ℤ × ℤ) (h : voteData k P fm v = .ok d) :
    d.2.2 = rewardOf P fm v := by
  unfold voteData at h
  cases hl : k.validatorByConsAddr v.address with
  | error e => rw [hl] at h; exact absurd h (by simp)
  | ok validator =>
    rw [hl] at h
    dsimp only at h
    cases hc : k.validatorAddressCodec validator.operator with
    | error e => rw [hc] at h; exact absurd h (by simp)
    | ok bz =>
      rw [hc] at h
      simp only [Except.ok.injEq] at h
      rw [← h]

lemma rewardOf_nonneg {P fm : ℤ} (v : VoteInfo) (hfm : 0 ≤ fm)
    (hp : 0 ≤ v.power) (hP : 0 < P) : 0 ≤ rewardOf P fm v := by
  have prec0 : (0:ℤ) ≤ precision := le_of_lt precision_pos
  unfold rewardOf mulTruncate quoTruncate
  have h1 : (0:ℤ) ≤ v.power * precision * (precision * precision) :=
    mul_nonneg (mul_nonneg hp prec0) (mul_nonneg prec0 prec0)
  have h2 := tdiv_nonneg_of_nonneg h1 (mul_nonneg (le_of_lt hP) prec0)
  have h3 := tdiv_nonneg_of_nonneg h2 prec0
  exact tdiv_nonneg_of_nonneg (mul_nonneg hfm h3) prec0

lemma rewardOf_mul_le {P fm : ℤ} (v : VoteInfo) (hfm : 0 ≤ fm)
    (hp : 0 ≤ v.power) (hP : 0 < P) :
    P * rewardOf P fm v ≤ fm * v.power := by
  have prec0 : (0:ℤ) ≤ precision := le_of_lt precision_pos
  unfold rewardOf mulTruncate quoTruncate
  set q := Int.tdiv (v.power * precision * (precision * precision)) (P * precision)
    with hqdef
  set pf := Int.tdiv q precision with hpfdef
  set rwd := Int.tdiv (fm * pf) precision with hrwddef
  have harg : (0:ℤ) ≤ v.power * precision * (precision * precision) :=
    mul_nonneg (mul_nonneg hp prec0) (mul_nonneg prec0 prec0)
  have hq0 : 0 ≤ q := tdiv_nonneg_of_nonneg harg (mul_nonneg (le_of_lt hP) prec0)
  have hpf0 : 0 ≤ pf := tdiv_nonneg_of_nonneg hq0 prec0
  have hA : precision * pf ≤ q := tdiv_mul_le hq0 precision_pos
  have hB : (P * precision) * q ≤ v.power * precision * (precision * precision) :=
    tdiv_mul_le harg (mul_pos hP precision_pos)
  have hC : precision * rwd ≤ fm * pf :=
    tdiv_mul_le (mul_nonneg hfm hpf0) precision_pos
  have hD : (precision * precision) * (P * pf) ≤
      (precision * precision) * (v.power * precision) := by
    have hA2 := mul_le_mul_of_nonneg_left hA (mul_nonneg (le_of_lt hP) prec0)
    nlinarith [hA2, hB]
  have hE : P * pf ≤ v.power * precision :=
    le_of_mul_le_mul_left hD (mul_pos precision_pos precision_pos)
  have hF : precision * (P * rwd) ≤ precision * (fm * v.power) := by
    have hC2 := mul_le_mul_of_nonneg_left hC (le_of_lt hP)
    have hE2 := mul_le_mul_of_nonneg_left hE hfm
    nlinarith [hC2, hE2]
  exact le_of_mul_le_mul_left hF precision_pos

lemma sum_rewardOf_le (P fm : ℤ) (hfm : 0 ≤ fm) (hP : 0 < P) :
    ∀ votes : List VoteInfo, (∀ v ∈ votes, 0 ≤ v.power) →
      P * ((votes.map (rewardOf P fm)).sum) ≤
        fm * ((votes.map VoteInfo.power).sum)
  | [], _ => by simp
  | v :: votes, hpow => by
    have h1 := rewardOf_mul_le v hfm (hpow v (List.mem_cons_self v votes)) hP
    have h2 := sum_rewardOf_le P fm hfm hP votes
      (fun w hw => hpow w (List.mem_cons_of_mem v hw))
    simp only [List.map_cons, List.sum_cons]
    nlinarith [h1, h2]

lemma okData_rewards_le (k : Keeper) (P fm : ℤ) (hfm : 0 ≤ fm) (hP : 0 < P) :
    ∀ votes : List VoteInfo, (∀ v ∈ votes, 0 ≤ v.power) →
      ((okData k P fm votes).map (fun d => d.2.2)).sum ≤
        (votes.map (rewardOf P fm)).sum
  | [], _ => by simp [okData]
  | v :: votes, hpow => by
    have h2 := okData_rewards_le k P fm hfm hP votes
      (fun w hw => hpow w (List.mem_cons_of_mem v hw))
    have hr0 := rewardOf_nonneg v hfm (hpow v (List.mem_cons_self v votes)) hP
    unfold okData
    unfold okData at h2
    simp only [Except.toOption] at h2
    cases hv : voteData k P fm v with
    | error e =>
      simp only [List.filterMap_cons, hv, Except.toOption, List.map_cons,
        List.sum_cons]
      linarith
    | ok d =>
      have hd := voteData_ok_reward k P fm v d hv
      simp only [List.filterMap_cons, hv, Except.toOption, List.map_cons,
        List.sum_cons]
      rw [hd]
      linarith

lemma feeMult_nonneg (k : Keeper) (s : State)
    (henv : 0 ≤ s.feeCollectorBalance)
    (htax1 : k.communityTax ≤ precision) : 0 ≤ feeMult k s := by
  have prec0 : (0:ℤ) ≤ precision := le_of_lt precision_pos
  unfold feeMult mulTruncate
  exact tdiv_nonneg_of_nonneg
    (mul_nonneg (mul_nonneg henv prec0) (by linarith)) prec0

lemma feeMult_le (k : Keeper) (s : State)
    (henv : 0 ≤ s.feeCollectorBalance)
    (htax0 : 0 ≤ k.communityTax) (htax1 : k.communityTax ≤ precision) :
    feeMult k s ≤ s.feeCollectorBalance * precision := by
  have prec0 : (0:ℤ) ≤ precision := le_of_lt precision_pos
  unfold feeMult mulTruncate
  have h1 : precision * Int.tdiv
      (s.feeCollectorBalance * precision * (precision - k.communityTax))
      precision ≤
      s.feeCollectorBalance * precision * (precision - k.communityTax) :=
    tdiv_mul_le (mul_nonneg (mul_nonneg henv prec0) (by linarith)) precision_pos
  have h2 : s.feeCollectorBalance * precision * (precision - k.communityTax) ≤
      s.feeCollectorBalance * precision * precision :=
    mul_le_mul_of_nonneg_left (by linarith) (mul_nonneg henv prec0)
  have h3 : precision * Int.tdiv
      (s.feeCollectorBalance * precision * (precision - k.communityTax))
      precision ≤ precision * (s.feeCollectorBalance * precision) := by
    nlinarith [h1, h2]
  exact le_of_mul_le_mul_left h3 precision_pos

lemma remainingAfter_nonneg (k : Keeper) (s : State) (P : ℤ)
    (votes : List VoteInfo)
    (henv : 0 ≤ s.feeCollectorBalance)
    (hpow : ∀ v ∈ votes, 0 ≤ v.power)
    (hsum : (votes.map VoteInfo.power).sum = P) (hP : 0 < P)
    (htax0 : 0 ≤ k.communityTax) (htax1 : k.communityTax ≤ precision) :
    0 ≤ remainingAfter k P votes s := by
  have hfm : 0 ≤ feeMult k s := feeMult_nonneg k s henv htax1
  have h1 := okData_rewards_le k P (feeMult k s) hfm hP votes hpow
  have h2 := sum_rewardOf_le P (feeMult k s) hfm hP votes hpow
  have h3 := feeMult_le k s henv htax0 htax1
  rw [hsum] at h2
  have h4 : (votes.map (rewardOf P (feeMult k s))).sum ≤ feeMult k s := by
    have h5 : P * (votes.map (rewardOf P (feeMult k s))).sum ≤
        P * feeMult k s := by nlinarith [h2]
    exact le_of_mul_le_mul_left h5 hP
  unfold feeMult at h1 h3 h4
  unfold remainingAfter
  linarith

/-- C8.  Remainder-pool non-negativity: under a non-negative envelope,
non-negative vote powers summing to the positive total power, and a
community tax in [0, 1), both AllocateTokens and
SendDecimalPoolToCommunityPool map a non-negative decimal pool to a
non-negative decimal pool. -/
theorem pool_nonneg_preserved (k : Keeper) (s : State) (P : ℤ)
    (votes : List VoteInfo)
    (hpool : 0 ≤ s.feePool.decimalPool)
    (henv : 0 ≤ s.feeCollectorBalance)
    (hpow : ∀ v ∈ votes, 0 ≤ v.power)
    (hsum : (votes.map VoteInfo.power).sum = P) (hP : 0 < P)
    (htax0 : 0 ≤ k.communityTax) (htax1 : k.communityTax < precision) :
    0 ≤ (AllocateTokens k P votes s).1.feePool.decimalPool ∧
    0 ≤ (SendDecimalPoolToCommunityPool s).1.feePool.decimalPool := by
  constructor
  · have hP0 : ¬ P = 0 := by omega
    cases he : firstErr k P (feeMult k s) votes with
    | some e =>
      rw [allocateTokens_err_case k P votes s e hP0 he]
      dsimp only
      rw [(applyAll_scalars _ _).1]
      exact hpool
    | none =>
      rw [allocateTokens_ok_case k P votes s hP0 he]
      dsimp only [finishCycle, sendToCommunityFund]
      have hR0 : 0 ≤ remainingAfter k P votes s :=
        remainingAfter_nonneg k s P votes henv hpow hsum hP htax0
          (le_of_lt htax1)
      have h1 : precision * Int.tdiv (remainingAfter k P votes s) precision ≤
          remainingAfter k P votes s := tdiv_mul_le hR0 precision_pos
      linarith
  · unfold SendDecimalPoolToCommunityPool
    dsimp only
    by_cases h0 : s.feePool.decimalPool = 0
    · rw [if_pos h0]
      exact hpool
    · rw [if_neg h0]
      dsimp only [truncateDecimal, sendToCommunityFund]
      have h1 : precision * Int.tdiv s.feePool.decimalPool precision ≤
          s.feePool.decimalPool := tdiv_mul_le hpool precision_pos
      linarith

/-- C8 witness: the preservation instantiated on the example cycle. -/
theorem pool_nonneg_preserved_witness :
    ((0:ℤ) ≤ sEx.feePool.decimalPool ∧ (0:ℤ) ≤ sEx.feeCollectorBalance ∧
      (∀ v ∈ votesEx, 0 ≤ v.power) ∧
      (votesEx.map VoteInfo.power).sum = 100 ∧ (0:ℤ) < 100 ∧
      0 ≤ kEx.communityTax ∧ kEx.communityTax < precision) ∧
    (0 ≤ (AllocateTokens kEx 100 votesEx sEx).1.feePool.decimalPool ∧
      0 ≤ (SendDecimalPoolToCommunityPool sEx).1.feePool.decimalPool) :=
  ⟨⟨by decide, by decide, by decide, by decide, by decide, by decide, by decide⟩,
   pool_nonneg_preserved kEx sEx 100 votesEx (by decide) (by decide) (by decide)
     (by decide) (by decide) (by decide) (by decide)⟩

/-- C9 counterexample: a vote list carrying power -1 (with all lookups and
encodings succeeding) completes the cycle without an error, contradicting
the claim that AllocateTokens returns a non-nil error for power < 0. -/
theorem allocateTokens_negative_power_no_error :
    (AllocateTokens kEx 1 votesNeg sEx).2 = none := by decide

/-- C9 amended: AllocateTokens performs no validation of vote powers.  If
the total power is non-zero and every vote resolves to a validator whose
operator address encodes, the cycle completes without error even when some
vote carries power < 0. -/
theorem allocateTokens_no_power_validation (k : Keeper) (s : State) (P : ℤ)
    (votes : List VoteInfo) (hP : ¬ P = 0)
    (hneg : ∃ v ∈ votes, v.power < 0)
    (hok : ∀ v ∈ votes, ∃ val, k.validatorByConsAddr v.address = .ok val ∧
      ∃ bz, k.validatorAddressCodec val.operator = .ok bz) :
    (AllocateTokens k P votes s).2 = none := by
  have he : firstErr k P (feeMult k s) votes = none := by
    unfold firstErr
    rw [List.findSome?_eq_none_iff]
    intro v hv
    rcases hok v hv with ⟨val, hval, bz, hbz⟩
    unfold voteData
    rw [hval]
    dsimp only
    rw [hbz]
  rw [allocateTokens_ok_case k P votes s hP he]

/-- C9 amended witness: the negative-power vote list runs to completion. -/
theorem allocateTokens_no_power_validation_witness :
    (¬ (1:ℤ) = 0 ∧ (∃ v ∈ votesNeg, v.power < 0)) ∧
    (AllocateTokens kEx 1 votesNeg sEx).2 = none :=
  ⟨⟨by decide, by decide⟩,
   allocateTokens_no_power_validation kEx sEx 1 votesNeg (by decide) (by decide)
     (by
      intro v hv
      simp only [votesNeg, List.mem_singleton] at hv
      subst hv
      exact ⟨⟨"va", 10 ^ 17⟩, rfl, "VA", rfl⟩)⟩

end DistrAlloc
